import Mathlib

/-!
Verification development for the coarse-to-fine fault-localization pipeline of
this repository (`agentless/fl/FL.py` and
`get_repo_structure/get_all_structure.py`).

The Python code is embedded shallowly: pure computations become Lean
functions, Python exceptions become `Option`/`Except` results, and the
oracle/model call is abstracted as a function parameter.  Python string
methods (`strip`, `split`, `startswith`, `endswith`, substring containment)
are embedded as executable functions over the character list of a `String`,
mirroring Python semantics.
-/

/- ### Python string primitives -/

/-- Python `str.startswith`. -/
def pyStartsWith (s pat : String) : Bool := pat.data.isPrefixOf s.data

/-- Python `str.endswith`. -/
def pyEndsWith (s pat : String) : Bool := pat.data.isSuffixOf s.data

/-- Whitespace class used by Python `str.strip()` (restricted to the ASCII
whitespace that actually occurs in this pipeline's strings). -/
def pyIsSpace (c : Char) : Bool := c == ' ' || c == '\t' || c == '\n' || c == '\r'

/-- Python `str.strip()`: remove leading and trailing whitespace. -/
def pyStrip (s : String) : String :=
  String.mk (((s.data.dropWhile pyIsSpace).reverse.dropWhile pyIsSpace).reverse)

/-- Characterwise worker for Python `str.split("\n")`. -/
def splitLinesChars : List Char → List (List Char)
  | [] => [[]]
  | c :: rest =>
    let r := splitLinesChars rest
    if c == '\n' then [] :: r
    else (c :: r.headD []) :: r.tail

/-- Python `str.split("\n")`: split on every newline, never dropping empty
fields (`"".split("\n") == [""]`). -/
def pySplitLines (s : String) : List String := (splitLinesChars s.data).map String.mk

/-- Characterwise worker for Python substring containment. -/
def charsInfixOf (pat : List Char) : List Char → Bool
  | [] => pat.isEmpty
  | c :: rest => pat.isPrefixOf (c :: rest) || charsInfixOf pat rest

/-- Python substring containment `pat in s`. -/
def strContains (s pat : String) : Bool := charsInfixOf pat.data s.data

/- ### ContextBudgetFitter (`FL.py`: the `message_too_long` / drop loop shared
by `localize_function_from_compressed_files`, `localize_function_from_raw_text`,
`localize_line_from_coarse_function_locs` and `localize_line_from_raw_text`) -/

/-- Hard token budget of every narrowing stage (`MAX_CONTEXT_LENGTH` in `FL.py`). -/
def MAX_CONTEXT_LENGTH : Nat := 128000

/-- Embeds the stage-local helper
`message_too_long(message) = num_tokens_from_messages(message, model) >= MAX_CONTEXT_LENGTH`,
with the token counter abstracted as a function and the budget as a parameter
(the source always instantiates the budget with `MAX_CONTEXT_LENGTH`). -/
def message_too_long (numTokens : String → Nat) (budget : Nat) (message : String) : Bool :=
  decide (budget ≤ numTokens message)

/-- Embeds the symbols-stage prompt assembly
`template.format(problem_statement=..., file_contents="".join(contents))`:
the fixed instruction/problem text around the concatenation of the per-file
content blocks. -/
def assembleSymbols (pre post : String) (contents : List String) : String :=
  pre ++ String.join contents ++ post

/-- Fuel-indexed worker for the budget-fitting loop.  One unit of fuel is one
iteration of the Python `while` loop; `fitCandidates` supplies enough fuel
(`len(contents)`) that the zero-fuel case is never reached on the loop's own
exit conditions. -/
def fitCandidatesFuel {α : Type} (numTokens : String → Nat) (budget : Nat)
    (assemble : List α → String) : Nat → List α → List α
  | 0, cands => cands
  | fuel + 1, cands =>
    if message_too_long numTokens budget (assemble cands) = true ∧ 1 < cands.length then
      fitCandidatesFuel numTokens budget assemble fuel cands.dropLast
    else cands

/-- Embeds the budget-fitting loop shared by the symbols and lines stages:
`while message_too_long(message) and len(contents) > 1: contents = contents[:-1]`
(the lines stage drops the last entry via `coarse_locs.popitem()`), with the
prompt re-assembled from the surviving candidates after every drop. -/
def fitCandidates {α : Type} (numTokens : String → Nat) (budget : Nat)
    (assemble : List α → String) (cands : List α) : List α :=
  fitCandidatesFuel numTokens budget assemble cands.length cands

/-- Embeds the fit-then-check sequence of each shrinking stage: run the drop
loop, then `if message_too_long(message): raise ValueError(...)` — the raised
error is the `Except.error` case. -/
def shrink_and_check {α : Type} (numTokens : String → Nat) (budget : Nat)
    (assemble : List α → String) (cands : List α) : Except String (List α) :=
  if message_too_long numTokens budget (assemble (fitCandidates numTokens budget assemble cands)) = true then
    Except.error "The remaining file content is too long to fit within the context length"
  else
    Except.ok (fitCandidates numTokens budget assemble cands)

theorem fitCandidatesFuel_of_fits {α : Type} (numTokens : String → Nat) (budget : Nat)
    (assemble : List α → String) (fuel : Nat) (cs : List α)
    (h : message_too_long numTokens budget (assemble cs) = false) :
    fitCandidatesFuel numTokens budget assemble fuel cs = cs := by
  cases fuel with
  | zero => rfl
  | succ n => simp [fitCandidatesFuel, h]

theorem fitCandidates_of_fits {α : Type} (numTokens : String → Nat) (budget : Nat)
    (assemble : List α → String) (cs : List α)
    (h : message_too_long numTokens budget (assemble cs) = false) :
    fitCandidates numTokens budget assemble cs = cs :=
  fitCandidatesFuel_of_fits numTokens budget assemble cs.length cs h

theorem fitCandidates_step {α : Type} (numTokens : String → Nat) (budget : Nat)
    (assemble : List α → String) (cs : List α)
    (h1 : message_too_long numTokens budget (assemble cs) = true)
    (h2 : 1 < cs.length) :
    fitCandidates numTokens budget assemble cs =
      fitCandidates numTokens budget assemble cs.dropLast := by
  unfold fitCandidates
  have hl : cs.length = cs.dropLast.length + 1 := by
    simp only [List.length_dropLast]
    omega
  rw [hl]
  simp [fitCandidatesFuel, h1, h2]

theorem fitCandidatesFuel_post {α : Type} (numTokens : String → Nat) (budget : Nat)
    (assemble : List α → String) :
    ∀ (fuel : Nat) (cs : List α), cs.length ≤ fuel + 1 →
      message_too_long numTokens budget
          (assemble (fitCandidatesFuel numTokens budget assemble fuel cs)) = false ∨
        (fitCandidatesFuel numTokens budget assemble fuel cs).length ≤ 1 := by
  intro fuel
  induction fuel with
  | zero =>
    intro cs h
    right
    simpa [fitCandidatesFuel] using h
  | succ n ih =>
    intro cs h
    by_cases hc : message_too_long numTokens budget (assemble cs) = true ∧ 1 < cs.length
    · rw [show fitCandidatesFuel numTokens budget assemble (n + 1) cs =
          fitCandidatesFuel numTokens budget assemble n cs.dropLast by
        simp [fitCandidatesFuel, hc]]
      apply ih
      simp only [List.length_dropLast]
      omega
    · rw [show fitCandidatesFuel numTokens budget assemble (n + 1) cs = cs by
        simp [fitCandidatesFuel, hc]]
      rcases not_and_or.mp hc with ha | hb
      · left
        simpa using ha
      · right
        omega

theorem fitCandidates_post {α : Type} (numTokens : String → Nat) (budget : Nat)
    (assemble : List α → String) (cs : List α) :
    message_too_long numTokens budget
        (assemble (fitCandidates numTokens budget assemble cs)) = false ∨
      (fitCandidates numTokens budget assemble cs).length ≤ 1 :=
  fitCandidatesFuel_post numTokens budget assemble cs.length cs (by omega)

theorem dropLast_pre {α : Type} : ∀ (l : List α), l.dropLast <+: l
  | [] => ⟨[], rfl⟩
  | [a] => ⟨[a], rfl⟩
  | a :: b :: rest => by
    obtain ⟨t, ht⟩ := dropLast_pre (b :: rest)
    exact ⟨t, by simpa [List.dropLast] using congrArg (a :: ·) ht⟩

theorem fitCandidatesFuel_pre {α : Type} (numTokens : String → Nat) (budget : Nat)
    (assemble : List α → String) :
    ∀ (fuel : Nat) (cs : List α), fitCandidatesFuel numTokens budget assemble fuel cs <+: cs := by
  intro fuel
  induction fuel with
  | zero => intro cs; exact ⟨[], by simp [fitCandidatesFuel]⟩
  | succ n ih =>
    intro cs
    by_cases hc : message_too_long numTokens budget (assemble cs) = true ∧ 1 < cs.length
    · rw [show fitCandidatesFuel numTokens budget assemble (n + 1) cs =
          fitCandidatesFuel numTokens budget assemble n cs.dropLast by
        simp [fitCandidatesFuel, hc]]
      exact (ih cs.dropLast).trans (dropLast_pre cs)
    · rw [show fitCandidatesFuel numTokens budget assemble (n + 1) cs = cs by
        simp [fitCandidatesFuel, hc]]

theorem fitCandidatesFuel_ne_nil {α : Type} (numTokens : String → Nat) (budget : Nat)
    (assemble : List α → String) :
    ∀ (fuel : Nat) (cs : List α), cs ≠ [] →
      fitCandidatesFuel numTokens budget assemble fuel cs ≠ [] := by
  intro fuel
  induction fuel with
  | zero => intro cs h; simpa [fitCandidatesFuel] using h
  | succ n ih =>
    intro cs h
    by_cases hc : message_too_long numTokens budget (assemble cs) = true ∧ 1 < cs.length
    · rw [show fitCandidatesFuel numTokens budget assemble (n + 1) cs =
          fitCandidatesFuel numTokens budget assemble n cs.dropLast by
        simp [fitCandidatesFuel, hc]]
      apply ih
      have : 0 < cs.dropLast.length := by
        simp only [List.length_dropLast]
        omega
      exact List.ne_nil_of_length_pos this
    · rw [show fitCandidatesFuel numTokens budget assemble (n + 1) cs = cs by
        simp [fitCandidatesFuel, hc]]
      exact h

/-- C1: the symbols-stage context assembly drops exactly the last chunk and
re-measures while the measured total is at least the budget and more than one
chunk remains; a candidate list whose prefix `[a, b]` of `[a, b, c]` is the
first one to fit is reduced to exactly `[a, b]`, and an already-fitting list is
returned unchanged. -/
theorem claim_c1_drop_from_tail (numTokens : String → Nat) (budget : Nat)
    (pre post : String) (a b c : String)
    (h1 : message_too_long numTokens budget (assembleSymbols pre post [a, b, c]) = true)
    (h2 : message_too_long numTokens budget (assembleSymbols pre post [a, b]) = false) :
    fitCandidates numTokens budget (assembleSymbols pre post) [a, b, c] = [a, b] ∧
    (∀ cs : List String, message_too_long numTokens budget (assembleSymbols pre post cs) = false →
      fitCandidates numTokens budget (assembleSymbols pre post) cs = cs) ∧
    (∀ cs : List String,
      message_too_long numTokens budget (assembleSymbols pre post cs) = true → 1 < cs.length →
      fitCandidates numTokens budget (assembleSymbols pre post) cs =
        fitCandidates numTokens budget (assembleSymbols pre post) cs.dropLast) := by
  refine ⟨?_, fun cs h => fitCandidates_of_fits _ _ _ _ h,
    fun cs h hl => fitCandidates_step _ _ _ _ h hl⟩
  rw [fitCandidates_step _ _ _ _ h1 (by simp)]
  rw [show ([a, b, c] : List String).dropLast = [a, b] from rfl]
  exact fitCandidates_of_fits _ _ _ _ h2

/-- Witness for C1 at a concrete token counter and budget: chunks of 4, 3 and 2
characters against a budget of 8 with a character-count token counter. -/
theorem claim_c1_drop_from_tail_witness :
    fitCandidates (fun s => s.length) 8 (assembleSymbols "" "") ["aaaa", "bbb", "cc"] =
      ["aaaa", "bbb"] :=
  (claim_c1_drop_from_tail (fun s => s.length) 8 "" "" "aaaa" "bbb" "cc"
    (by decide) (by decide)).1

/-- C2: a shrinking stage raises `ValueError` exactly when, after the drop loop
has reduced the candidates to a single remaining one, the assembled prompt
still measures at least the budget; a successful return hands back a prefix of
the original candidate list (whole chunks only, no chunk is truncated). -/
theorem claim_c2_context_too_large {α : Type} (numTokens : String → Nat) (budget : Nat)
    (assemble : List α → String) (cands : List α) (hne : cands ≠ []) :
    ((shrink_and_check numTokens budget assemble cands).isOk = false ↔
      ((fitCandidates numTokens budget assemble cands).length = 1 ∧
        message_too_long numTokens budget
          (assemble (fitCandidates numTokens budget assemble cands)) = true)) ∧
    (∀ out, shrink_and_check numTokens budget assemble cands = Except.ok out → out <+: cands) := by
  constructor
  · constructor
    · intro h
      by_cases hc : message_too_long numTokens budget
          (assemble (fitCandidates numTokens budget assemble cands)) = true
      · refine ⟨?_, hc⟩
        rcases fitCandidates_post numTokens budget assemble cands with hf | hf
        · rw [hf] at hc
          cases hc
        · have hnil : fitCandidates numTokens budget assemble cands ≠ [] :=
            fitCandidatesFuel_ne_nil numTokens budget assemble cands.length cands hne
          have := List.length_pos.mpr hnil
          omega
      · rw [shrink_and_check, if_neg hc] at h
        simp [Except.isOk, Except.toBool] at h
    · intro ⟨h1, h2⟩
      rw [shrink_and_check, if_pos h2]
      rfl
  · intro out hout
    by_cases hc : message_too_long numTokens budget
        (assemble (fitCandidates numTokens budget assemble cands)) = true
    · rw [shrink_and_check, if_pos hc] at hout
      cases hout
    · rw [shrink_and_check, if_neg hc] at hout
      cases hout
      exact fitCandidatesFuel_pre numTokens budget assemble cands.length cands

/-- Witness for C2: with budget 2, chunks `"aaa"`, `"bb"` and a character-count
token counter, the loop drops to the single chunk `"aaa"`, which still
overflows, so the stage reports the error. -/
theorem claim_c2_context_too_large_witness :
    (shrink_and_check (fun s => s.length) 2 String.join ["aaa", "bb"]).isOk = false := by
  have h := claim_c2_context_too_large (fun s => s.length) 2 String.join ["aaa", "bb"] (by decide)
  exact h.1.mpr (by decide)

/- ### Oracle-response line parsing (`LLMFL._parse_model_return_lines`) -/

/-- Embeds `_parse_model_return_lines`: `content.strip().split("\n")` when
`content` is truthy; the implicit `return None` for a falsy (empty) `content`
is the `none` case. -/
def parse_model_return_lines (content : String) : Option (List String) :=
  if content = "" then none else some (pySplitLines (pyStrip content))

/- ### Irrelevant-folders stage (`LLMFL.localize_irrelevant`) -/

/-- Embeds the kept/filtered loop of `localize_irrelevant`: an indexed file
whose path starts with any of the model-identified folder/file strings is
appended to `filtered_files`, every other file to `f_files`; the result is
`(f_files, filtered_files)`. -/
def split_irrelevant (model_identified : List String) : List String → List String × List String
  | [] => ([], [])
  | file_name :: rest =>
    let r := split_irrelevant model_identified rest
    if model_identified.any (fun x => pyStartsWith file_name x) then
      (r.1, file_name :: r.2)
    else
      (file_name :: r.1, r.2)

/-- Embeds `localize_irrelevant` from the oracle's raw output onward: parse the
response into lines, keep only lines ending in `/` or `.py` as exclusion
prefixes, then compute the kept/filtered partition of the indexed files.
`none` models the `TypeError` raised by iterating the Python `None` that
`_parse_model_return_lines` yields for an empty response. -/
def localize_irrelevant_stage (files : List String) (raw_output : String) :
    Option (List String × List String) :=
  match parse_model_return_lines raw_output with
  | none => none
  | some ls =>
    some (split_irrelevant (ls.filter (fun x => pyEndsWith x "/" || pyEndsWith x ".py")) files)

theorem split_irrelevant_eq (model_identified files : List String) :
    split_irrelevant model_identified files =
      (files.filter (fun f => !(model_identified.any (fun x => pyStartsWith f x))),
       files.filter (fun f => model_identified.any (fun x => pyStartsWith f x))) := by
  induction files with
  | nil => rfl
  | cons hd tl ih =>
    simp only [split_irrelevant, ih, List.filter_cons]
    cases hany : model_identified.any (fun x => pyStartsWith hd x) <;> simp [hany]

/-- C4: `localize_irrelevant` partitions the indexed files into two disjoint,
exhaustive lists: a file goes to `filtered_files` if and only if its path
starts with some declared prefix, and to `f_files` (the kept list) otherwise;
together they are a permutation of the indexed files; and a path extending a
declared folder string (a file in a nested subfolder) always matches it. -/
theorem claim_c4_irrelevant_complement (model_identified files : List String) :
    (∀ f, f ∈ (split_irrelevant model_identified files).2 ↔
      f ∈ files ∧ model_identified.any (fun x => pyStartsWith f x) = true) ∧
    (∀ f, f ∈ (split_irrelevant model_identified files).1 ↔
      f ∈ files ∧ model_identified.any (fun x => pyStartsWith f x) = false) ∧
    ((split_irrelevant model_identified files).2 ++
      (split_irrelevant model_identified files).1).Perm files ∧
    (∀ folder rest : String, pyStartsWith (folder ++ rest) folder = true) := by
  refine ⟨?_, ?_, ?_, ?_⟩
  · intro f
    simp [split_irrelevant_eq, List.mem_filter]
  · intro f
    simp [split_irrelevant_eq, List.mem_filter]
  · rw [split_irrelevant_eq]
    exact List.filter_append_perm _ files
  · intro folder rest
    simp only [pyStartsWith, String.data_append]
    exact List.isPrefixOf_iff_prefix.mpr (List.prefix_append _ _)

/-- Witness for C4 at a concrete prefix list: the nested file `sub/x.c` is
filtered by the declared folder `sub/`, the unrelated `a.c` is kept. -/
theorem claim_c4_irrelevant_complement_witness :
    "sub/x.c" ∈ (split_irrelevant ["sub/"] ["a.c", "sub/x.c"]).2 ∧
    "a.c" ∈ (split_irrelevant ["sub/"] ["a.c", "sub/x.c"]).1 := by
  have h := claim_c4_irrelevant_complement ["sub/"] ["a.c", "sub/x.c"]
  exact ⟨(h.1 "sub/x.c").mpr (by decide), (h.2.1 "a.c").mpr (by decide)⟩

/-- C10 counterexample: for the empty oracle response — a response containing
no line ending in `/` or `.py` — the stage raises a `TypeError` (iterating
Python `None`) instead of returning every indexed file as kept. -/
theorem claim_c10_counterexample :
    localize_irrelevant_stage ["a.c"] "" = none ∧
      localize_irrelevant_stage ["a.c"] "" ≠ some (["a.c"], []) := by decide

/-- C10 (amended): for a NONEMPTY oracle response, a line is used as an
exclusion prefix only if it ends with `/` or `.py` (every filtered file owes
its exclusion to such a line), and if no parsed line ends that way the
filtered list is empty and every indexed file is kept. -/
theorem claim_c10_line_filter (files : List String) (raw_output : String)
    (hne : raw_output ≠ "") :
    (∀ kept filtered, localize_irrelevant_stage files raw_output = some (kept, filtered) →
      ∀ f ∈ filtered, ∃ line ∈ pySplitLines (pyStrip raw_output),
        (pyEndsWith line "/" || pyEndsWith line ".py") = true ∧ pyStartsWith f line = true) ∧
    ((∀ line ∈ pySplitLines (pyStrip raw_output),
        (pyEndsWith line "/" || pyEndsWith line ".py") = false) →
      localize_irrelevant_stage files raw_output = some (files, [])) := by
  have hparse : parse_model_return_lines raw_output = some (pySplitLines (pyStrip raw_output)) := by
    rw [parse_model_return_lines, if_neg hne]
  constructor
  · intro kept filtered hstage f hf
    have hstage2 : some (split_irrelevant
        ((pySplitLines (pyStrip raw_output)).filter
          (fun x => pyEndsWith x "/" || pyEndsWith x ".py")) files) = some (kept, filtered) := by
      rw [localize_irrelevant_stage, hparse] at hstage
      exact hstage
    have hpair := Option.some.inj hstage2
    have hfiltered : filtered =
        (split_irrelevant
          ((pySplitLines (pyStrip raw_output)).filter
            (fun x => pyEndsWith x "/" || pyEndsWith x ".py")) files).2 := by
      rw [hpair]
    rw [hfiltered, split_irrelevant_eq, List.mem_filter] at hf
    obtain ⟨-, hany⟩ := hf
    obtain ⟨line, hline, hstarts⟩ := List.any_eq_true.mp hany
    rw [List.mem_filter] at hline
    exact ⟨line, hline.1, hline.2, hstarts⟩
  · intro hnone
    have hfil : (pySplitLines (pyStrip raw_output)).filter
        (fun x => pyEndsWith x "/" || pyEndsWith x ".py") = [] := by
      rw [List.filter_eq_nil_iff]
      intro a ha
      simp [hnone a ha]
    rw [localize_irrelevant_stage, hparse]
    show some (split_irrelevant
        ((pySplitLines (pyStrip raw_output)).filter
          (fun x => pyEndsWith x "/" || pyEndsWith x ".py")) files) = some (files, [])
    rw [hfil, split_irrelevant_eq]
    simp

/-- Witness for C10 (amended) at a concrete response with no `/`- or
`.py`-terminated line: everything is kept, nothing filtered. -/
theorem claim_c10_line_filter_witness :
    localize_irrelevant_stage ["a.c", "sub/b.c"] "hello\nworld" =
      some (["a.c", "sub/b.c"], []) :=
  (claim_c10_line_filter ["a.c", "sub/b.c"] "hello\nworld" (by decide)).2 (by decide)

/- ### Files stage (`LLMFL.localize`) -/

/-- First-mention deduplication worker: `seen` accumulates paths already
emitted. -/
def dedupFirstAux : List String → List String → List String
  | _, [] => []
  | seen, x :: xs =>
    if seen.contains x then dedupFirstAux seen xs
    else x :: dedupFirstAux (x :: seen) xs

/-- Keep the first occurrence of every path, in order of first mention. -/
def dedupFirst (l : List String) : List String := dedupFirstAux [] l

/-- Modelled from the spec: `correct_file_paths` is imported from
`agentless.util.preprocess_data`, which is not among this repository's
sources.  Per the spec's ResultParser contract, a mention resolves to an
exactly matching known path, otherwise by suffix comparison (the oracle may
omit a path prefix), and is dropped when nothing plausible matches. -/
def resolve_mention (files : List String) (m : String) : Option String :=
  if files.contains m then some m
  else if m = "" then none
  else files.find? (fun f => pyEndsWith f m)

/-- Modelled from the spec: `correct_file_paths(model_found_files, files)`
resolves every mentioned line against the known paths and keeps one hit per
resolved path, ordered by first mention (spec §3: LocationHit uniqueness by
path, stable order = order of first mention; §4.4: path correction). -/
def correct_file_paths (model_found_files : List String) (files : List String) : List String :=
  dedupFirst (model_found_files.filterMap (resolve_mention files))

/-- Embeds the tail of `LLMFL.localize`:
`model_found_files = self._parse_model_return_lines(raw_output)` then
`found_files = correct_file_paths(model_found_files, files)` — returned
without any truncation to `top_n`. -/
def localize_files_stage (files : List String) (raw_output : String) : Option (List String) :=
  (parse_model_return_lines raw_output).map (fun ls => correct_file_paths ls files)

theorem dedupFirstAux_cons_of_seen (seen : List String) (x : String) (xs : List String)
    (hc : seen.contains x = true) :
    dedupFirstAux seen (x :: xs) = dedupFirstAux seen xs := by
  simp only [dedupFirstAux]
  rw [if_pos hc]

theorem dedupFirstAux_cons_of_new (seen : List String) (x : String) (xs : List String)
    (hc : ¬seen.contains x = true) :
    dedupFirstAux seen (x :: xs) = x :: dedupFirstAux (x :: seen) xs := by
  simp only [dedupFirstAux]
  rw [if_neg hc]

theorem mem_dedupFirstAux (a : String) :
    ∀ (l seen : List String), a ∈ dedupFirstAux seen l ↔ a ∈ l ∧ a ∉ seen := by
  intro l
  induction l with
  | nil => intro seen; simp [dedupFirstAux]
  | cons x xs ih =>
    intro seen
    by_cases hc : seen.contains x
    · rw [dedupFirstAux_cons_of_seen seen x xs hc]
      rw [ih]
      have hx : x ∈ seen := by simpa using hc
      constructor
      · rintro ⟨h1, h2⟩
        exact ⟨List.mem_cons_of_mem _ h1, h2⟩
      · rintro ⟨h1, h2⟩
        rcases List.mem_cons.mp h1 with rfl | h1
        · exact absurd hx h2
        · exact ⟨h1, h2⟩
    · rw [dedupFirstAux_cons_of_new seen x xs hc]
      have hx : x ∉ seen := by simpa using hc
      rw [List.mem_cons, ih]
      constructor
      · rintro (rfl | ⟨h1, h2⟩)
        · exact ⟨List.mem_cons_self _ _, hx⟩
        · exact ⟨List.mem_cons_of_mem _ h1, fun hs => h2 (List.mem_cons_of_mem _ hs)⟩
      · rintro ⟨h1, h2⟩
        rcases List.mem_cons.mp h1 with rfl | h1
        · exact Or.inl rfl
        · by_cases hax : a = x
          · exact Or.inl hax
          · exact Or.inr ⟨h1, fun hs => by
              rcases List.mem_cons.mp hs with h | h
              · exact hax h
              · exact h2 h⟩

theorem nodup_dedupFirstAux :
    ∀ (l seen : List String), (dedupFirstAux seen l).Nodup := by
  intro l
  induction l with
  | nil => intro seen; simp [dedupFirstAux]
  | cons x xs ih =>
    intro seen
    by_cases hc : seen.contains x
    · rw [dedupFirstAux_cons_of_seen seen x xs hc]
      exact ih seen
    · rw [dedupFirstAux_cons_of_new seen x xs hc]
      refine List.nodup_cons.mpr ⟨?_, ih (x :: seen)⟩
      intro hx
      exact ((mem_dedupFirstAux x xs (x :: seen)).mp hx).2 (List.mem_cons_self _ _)

theorem pairwise_indexOf_dedupFirstAux :
    ∀ (l seen : List String),
      (dedupFirstAux seen l).Pairwise (fun a b => l.indexOf a < l.indexOf b) := by
  intro l
  induction l with
  | nil => intro seen; simp [dedupFirstAux]
  | cons x xs ih =>
    intro seen
    by_cases hc : seen.contains x
    · rw [dedupFirstAux_cons_of_seen seen x xs hc]
      have hx : x ∈ seen := by simpa using hc
      refine List.Pairwise.imp_of_mem ?_ (ih seen)
      intro a b ha hb hab
      have hane : a ≠ x := by
        intro h
        exact ((mem_dedupFirstAux a xs seen).mp ha).2 (h ▸ hx)
      have hbne : b ≠ x := by
        intro h
        exact ((mem_dedupFirstAux b xs seen).mp hb).2 (h ▸ hx)
      rw [List.indexOf_cons_ne _ (Ne.symm hane), List.indexOf_cons_ne _ (Ne.symm hbne)]
      omega
    · rw [dedupFirstAux_cons_of_new seen x xs hc]
      refine List.pairwise_cons.mpr ⟨?_, ?_⟩
      · intro b hb
        have hbne : b ≠ x :=
          fun h => ((mem_dedupFirstAux b xs (x :: seen)).mp hb).2 (h ▸ List.mem_cons_self _ _)
        rw [List.indexOf_cons_self, List.indexOf_cons_ne _ (Ne.symm hbne)]
        omega
      · refine List.Pairwise.imp_of_mem ?_ (ih (x :: seen))
        intro a b ha hb hab
        have hane : a ≠ x := fun h =>
          ((mem_dedupFirstAux a xs (x :: seen)).mp ha).2 (h ▸ List.mem_cons_self _ _)
        have hbne : b ≠ x := fun h =>
          ((mem_dedupFirstAux b xs (x :: seen)).mp hb).2 (h ▸ List.mem_cons_self _ _)
        rw [List.indexOf_cons_ne _ (Ne.symm hane), List.indexOf_cons_ne _ (Ne.symm hbne)]
        omega

/-- C3 counterexample: with known files `a.c`, `b.c` and an oracle response
naming both, the files stage resolves and returns BOTH paths even though the
claim (at the default `top_n = 1`) allows at most one — `localize` never
truncates its result to `top_n`. -/
theorem claim_c3_counterexample :
    localize_files_stage ["a.c", "b.c"] "a.c\nb.c" = some ["a.c", "b.c"] ∧
      ¬((["a.c", "b.c"] : List String).length ≤ 1) := by decide

/-- C3 (amended): the files stage returns ALL resolved paths — `top_n` is
never applied — and the returned list is duplicate-free, contains exactly the
resolvable mentions, and is ordered by first mention in the oracle's raw
response. -/
theorem claim_c3_order_of_first_mention (files : List String) (raw_output : String)
    (ls : List String) (hp : parse_model_return_lines raw_output = some ls) :
    localize_files_stage files raw_output = some (correct_file_paths ls files) ∧
    (correct_file_paths ls files).Nodup ∧
    (∀ f, f ∈ correct_file_paths ls files ↔ f ∈ ls.filterMap (resolve_mention files)) ∧
    (correct_file_paths ls files).Pairwise (fun a b =>
      (ls.filterMap (resolve_mention files)).indexOf a <
        (ls.filterMap (resolve_mention files)).indexOf b) := by
  refine ⟨?_, ?_, ?_, ?_⟩
  · rw [localize_files_stage, hp]
    rfl
  · exact nodup_dedupFirstAux _ []
  · intro f
    rw [correct_file_paths, dedupFirst, mem_dedupFirstAux]
    simp
  · exact pairwise_indexOf_dedupFirstAux _ []

/-- Witness for C3 (amended): `b.c` is mentioned first and exactly, `a.c`
resolves by suffix to `src/a.c`, the duplicate mention of `b.c` is dropped. -/
theorem claim_c3_order_of_first_mention_witness :
    localize_files_stage ["src/a.c", "b.c"] "b.c\na.c\nb.c" =
      some (correct_file_paths ["b.c", "a.c", "b.c"] ["src/a.c", "b.c"]) ∧
    (correct_file_paths ["b.c", "a.c", "b.c"] ["src/a.c", "b.c"]).Nodup := by
  have h := claim_c3_order_of_first_mention ["src/a.c", "b.c"] "b.c\na.c\nb.c"
    ["b.c", "a.c", "b.c"] (by decide)
  exact ⟨h.1, h.2.1⟩

/- ### SampleAggregator (`localize_line_from_coarse_function_locs` and
`localize_line_from_raw_text`: the trajectory-merging tail) -/

/-- Token usage record of one oracle trajectory (`traj["usage"]`). -/
structure Usage where
  prompt_tokens : Nat
  completion_tokens : Nat
deriving DecidableEq

/-- One oracle trajectory (`traj`): raw response text plus its token usage. -/
structure RawTraj where
  response : String
  usage : Usage
deriving DecidableEq

/-- Result shape of the lines stage: Python unwraps a singleton sample list
(`if len(xs) == 1: xs = xs[0]`), so the first returned component is either one
parsed result set or a list of them. -/
inductive SampleOutput (α : Type) where
  | single : α → SampleOutput α
  | multi : List α → SampleOutput α
deriving DecidableEq

/-- Embeds the sample-merging tail shared by the two lines-stage functions:
collect `raw_outputs`, sum both token counts over all trajectories into one
merged usage record, parse every sample (`extract_code_blocks` plus
`extract_locs_for_files`, abstracted as `parse`), and unwrap a singleton
sample list. -/
def merge_line_samples {α : Type} (parse : String → α) (raw_trajs : List RawTraj) :
    SampleOutput α × Usage :=
  let raw_outputs := raw_trajs.map (fun t => t.response)
  let merged : Usage :=
    { prompt_tokens := (raw_trajs.map (fun t => t.usage.prompt_tokens)).sum,
      completion_tokens := (raw_trajs.map (fun t => t.usage.completion_tokens)).sum }
  match raw_outputs.map parse with
  | [s] => (SampleOutput.single s, merged)
  | ss => (SampleOutput.multi ss, merged)

/-- C5: with a single sample the lines stage returns the parsed result
unwrapped; with N > 1 samples it returns the list of all N parsed result sets
in sample order; and in both cases the merged usage record's fields are the
sums of the per-sample token counts. -/
theorem claim_c5_sample_merge {α : Type} (parse : String → α) (raw_trajs : List RawTraj) :
    (∀ t, raw_trajs = [t] →
      (merge_line_samples parse raw_trajs).1 = SampleOutput.single (parse t.response)) ∧
    (1 < raw_trajs.length →
      (merge_line_samples parse raw_trajs).1 =
        SampleOutput.multi (raw_trajs.map (fun t => parse t.response)) ∧
      (raw_trajs.map (fun t => parse t.response)).length = raw_trajs.length) ∧
    (merge_line_samples parse raw_trajs).2.prompt_tokens =
      (raw_trajs.map (fun t => t.usage.prompt_tokens)).sum ∧
    (merge_line_samples parse raw_trajs).2.completion_tokens =
      (raw_trajs.map (fun t => t.usage.completion_tokens)).sum := by
  refine ⟨?_, ?_, ?_, ?_⟩
  · rintro t rfl
    rfl
  · intro h
    rcases raw_trajs with _ | ⟨a, _ | ⟨b, bs⟩⟩
    · simp at h
    · simp at h
    · constructor
      · have hm : (merge_line_samples parse (a :: b :: bs)).1 =
            SampleOutput.multi (List.map parse (List.map (fun t => t.response) (a :: b :: bs))) :=
          rfl
        rw [hm, List.map_map]
        rfl
      · simp
  · rcases raw_trajs with _ | ⟨a, _ | ⟨b, bs⟩⟩ <;> rfl
  · rcases raw_trajs with _ | ⟨a, _ | ⟨b, bs⟩⟩ <;> rfl

/-- Witness for C5 at two concrete trajectories (and the singleton case),
with the parser instantiated by line splitting. -/
theorem claim_c5_sample_merge_witness :
    (merge_line_samples pySplitLines [RawTraj.mk "x\ny" (Usage.mk 3 5)]).1 =
      SampleOutput.single ["x", "y"] ∧
    (merge_line_samples pySplitLines
      [RawTraj.mk "x\ny" (Usage.mk 3 5), RawTraj.mk "z" (Usage.mk 7 11)]).1 =
      SampleOutput.multi [["x", "y"], ["z"]] ∧
    (merge_line_samples pySplitLines
      [RawTraj.mk "x\ny" (Usage.mk 3 5), RawTraj.mk "z" (Usage.mk 7 11)]).2 =
      Usage.mk 10 16 := by
  refine ⟨?_, ?_, ?_⟩
  · have h := (claim_c5_sample_merge pySplitLines [RawTraj.mk "x\ny" (Usage.mk 3 5)]).1
      (RawTraj.mk "x\ny" (Usage.mk 3 5)) rfl
    rw [h]
    decide
  · have h := ((claim_c5_sample_merge pySplitLines
      [RawTraj.mk "x\ny" (Usage.mk 3 5), RawTraj.mk "z" (Usage.mk 7 11)]).2.1 (by decide)).1
    rw [h]
    decide
  · have hp := (claim_c5_sample_merge pySplitLines
      [RawTraj.mk "x\ny" (Usage.mk 3 5), RawTraj.mk "z" (Usage.mk 7 11)]).2.2.1
    have hc := (claim_c5_sample_merge pySplitLines
      [RawTraj.mk "x\ny" (Usage.mk 3 5), RawTraj.mk "z" (Usage.mk 7 11)]).2.2.2
    have : (merge_line_samples pySplitLines
        [RawTraj.mk "x\ny" (Usage.mk 3 5), RawTraj.mk "z" (Usage.mk 7 11)]).2 =
        Usage.mk (merge_line_samples pySplitLines
          [RawTraj.mk "x\ny" (Usage.mk 3 5), RawTraj.mk "z" (Usage.mk 7 11)]).2.prompt_tokens
          (merge_line_samples pySplitLines
          [RawTraj.mk "x\ny" (Usage.mk 3 5), RawTraj.mk "z" (Usage.mk 7 11)]).2.completion_tokens := rfl
    rw [this, hp, hc]
    decide

/- ### SubdirectoryPartitioner (`KernelLLMFL`) -/

/-- Embeds `KernelLLMFL._rerank_files`: the empty-hits / `mock` branch returns
the first `top_n` collected hit paths (`[f[0] for f in file_results[:top_n]]`)
without consulting any oracle; the other branch builds the re-rank prompt,
calls the model and truncates its parsed line list (`reranked_files[:top_n]`).
`oracle` abstracts prompt construction, the model call and the line parsing
together. -/
def rerank_files (oracle : List (String × String) → List String)
    (file_results : List (String × String)) (top_n : Nat) (mock : Bool) : List String :=
  if file_results.isEmpty || mock then (file_results.take top_n).map Prod.fst
  else (oracle file_results).take top_n

/-- Embeds the per-partition loop of `KernelLLMFL.localize_by_subdirs`: run
the scoped files stage for every subdirectory (`localizeResult`; its
`Except.error` case models an exception caught by the loop's `try/except`),
extend `all_results` with `(file, subdir)` pairs on success, and skip the
partition on failure. -/
def collect_subdir_results (localizeResult : String → Except String (List String)) :
    List String → List (String × String)
  | [] => []
  | subdir :: rest =>
    (match localizeResult subdir with
     | Except.error _ => []
     | Except.ok found_files => found_files.map (fun f => (f, subdir))) ++
      collect_subdir_results localizeResult rest

/-- Embeds `KernelLLMFL.localize_by_subdirs`: collect the per-partition hits,
then re-rank them via `self._rerank_files(all_results, top_n, mock)`. -/
def localize_by_subdirs (localizeResult : String → Except String (List String))
    (oracle : List (String × String) → List String)
    (subdirs : List String) (top_n : Nat) (mock : Bool) : List String :=
  rerank_files oracle (collect_subdir_results localizeResult subdirs) top_n mock

/-- C6: a partition whose files-stage call raises is skipped and the run
continues (the collector is total, so no exception propagates): every hit of
every non-failing partition appears, tagged with its origin partition, in the
candidate set passed to the re-rank step, and every collected candidate stems
from a non-failing partition. -/
theorem claim_c6_partition_skip (localizeResult : String → Except String (List String))
    (subdirs : List String) :
    (∀ subdir ∈ subdirs, ∀ fs, localizeResult subdir = Except.ok fs →
      ∀ f ∈ fs, (f, subdir) ∈ collect_subdir_results localizeResult subdirs) ∧
    (∀ p ∈ collect_subdir_results localizeResult subdirs,
      ∃ fs, localizeResult p.2 = Except.ok fs ∧ p.1 ∈ fs) := by
  constructor
  · induction subdirs with
    | nil =>
      intro subdir hsub
      cases hsub
    | cons s rest ih =>
      intro subdir hsub fs hok f hf
      rcases List.mem_cons.mp hsub with rfl | hsub
      · rw [collect_subdir_results]
        apply List.mem_append.mpr
        left
        rw [hok]
        exact List.mem_map.mpr ⟨f, hf, rfl⟩
      · rw [collect_subdir_results]
        apply List.mem_append.mpr
        right
        exact ih subdir hsub fs hok f hf
  · induction subdirs with
    | nil =>
      intro p hp
      cases hp
    | cons s rest ih =>
      intro p hp
      rw [collect_subdir_results] at hp
      rcases List.mem_append.mp hp with h | h
      · cases hres : localizeResult s with
        | error e =>
          rw [hres] at h
          cases h
        | ok fs =>
          rw [hres] at h
          obtain ⟨f, hf, rfl⟩ := List.mem_map.mp h
          exact ⟨fs, hres, hf⟩
      · exact ih p h

/-- Witness for C6: with partition `mm` raising and `fs`, `net` succeeding,
both surviving partitions' hits are in the collected candidate set. -/
theorem claim_c6_partition_skip_witness :
    ("fs/a.c", "fs") ∈ collect_subdir_results
      (fun s => if s = "fs" then Except.ok ["fs/a.c"]
        else if s = "net" then Except.ok ["net/x.c"] else Except.error "oracle failed")
      ["fs", "mm", "net"] ∧
    ("net/x.c", "net") ∈ collect_subdir_results
      (fun s => if s = "fs" then Except.ok ["fs/a.c"]
        else if s = "net" then Except.ok ["net/x.c"] else Except.error "oracle failed")
      ["fs", "mm", "net"] := by
  have h := (claim_c6_partition_skip
    (fun s => if s = "fs" then Except.ok ["fs/a.c"]
      else if s = "net" then Except.ok ["net/x.c"] else Except.error "oracle failed")
    ["fs", "mm", "net"]).1
  exact ⟨h "fs" (by decide) ["fs/a.c"] rfl "fs/a.c" (by decide),
    h "net" (by decide) ["net/x.c"] rfl "net/x.c" (by decide)⟩

/-- C7: with an empty collected hit list, or in mock mode, `_rerank_files`
returns the first `top_n` collected hit paths in collection order and issues
no oracle call — the result does not depend on the oracle at all. -/
theorem claim_c7_rerank_fallback (oracle : List (String × String) → List String)
    (file_results : List (String × String)) (top_n : Nat) (mock : Bool)
    (h : file_results = [] ∨ mock = true) :
    rerank_files oracle file_results top_n mock = (file_results.take top_n).map Prod.fst ∧
    (∀ oracle2, rerank_files oracle2 file_results top_n mock =
      rerank_files oracle file_results top_n mock) := by
  have hcond : (file_results.isEmpty || mock) = true := by
    rcases h with rfl | rfl
    · simp
    · simp
  constructor
  · rw [rerank_files, if_pos hcond]
  · intro oracle2
    rw [rerank_files, if_pos hcond, rerank_files, if_pos hcond]

/-- Witness for C7: in mock mode the fallback truncates the collected hits to
the first `top_n` paths, ignoring an oracle that would answer differently. -/
theorem claim_c7_rerank_fallback_witness :
    rerank_files (fun _ => ["oracle.c"]) [("a.c", "fs"), ("b.c", "mm")] 1 true = ["a.c"] := by
  have h := claim_c7_rerank_fallback (fun _ => ["oracle.c"])
    [("a.c", "fs"), ("b.c", "mm")] 1 true (Or.inr rfl)
  rw [h.1]
  rfl

/- ### StructuralIndexer (`get_all_structure.create_structure`) -/

/-- One C declaration extracted by `parse_c_file`: a struct/union or function
definition with its name, line span and text. -/
structure CDeclInfo where
  name : String
  start_line : Nat
  end_line : Nat
  text : List String
deriving DecidableEq

/-- Record stored for a parsed `.c`/`.h` file: `classes` holds the struct
information, `functions` the function definitions, `text` the file lines. -/
structure CFileRecord where
  classes : List CDeclInfo
  functions : List CDeclInfo
  text : List String
deriving DecidableEq

/-- One node of the nested Python dict built by `create_structure`: either a
plain dict (a directory level — and also the bare `{}` stored for files not
ending in `.c`/`.h`) or a parsed file record. -/
inductive Entry where
  | dict : List (String × Entry) → Entry
  | file : CFileRecord → Entry

/-- A directory tree to be indexed: files carry the content handed to the
extractor, directories carry their children. -/
inductive FSNode where
  | file : String → String → FSNode
  | dir : String → List FSNode → FSNode

/-- Name of a tree node. -/
def nodeName : FSNode → String
  | FSNode.file n _ => n
  | FSNode.dir n _ => n

/-- Walk-path extension: `os.walk` visits roots of the form `<parent>/<name>`;
the top-level root is modelled as the relative root `"."` (the source checks
the absolute `directory_path` prefix too, which is assumed free of `.git`
here). -/
def childPath (path name : String) : String :=
  if path = "." then name else path ++ "/" ++ name

/-- Walk path reached from `path` by descending the directory names `dirs`. -/
def pathStrFrom (path : String) (dirs : List String) : String :=
  dirs.foldl childPath path

/-- Record stored for one file name: `.c`/`.h` files get the `parse_c_file`
result — or the empty record when extraction raises (`except` branch) — and
every other file gets the empty dict `{}`. -/
def fileRecordEntry (extract : String → Option CFileRecord) (name content : String) : Entry :=
  if pyEndsWith name ".c" || pyEndsWith name ".h" then
    Entry.file ((extract content).getD (CFileRecord.mk [] [] []))
  else Entry.dict []

mutual
/-- Embeds the `os.walk` loop of `create_structure` over the children of one
admitted directory: every file name maps to its record; a subdirectory whose
walk path contains `.git` as a substring is skipped entirely (the loop's
`if '.git' in root: continue`), every other subdirectory is recursed into. -/
def buildEntries (extract : String → Option CFileRecord) (path : String) :
    List FSNode → List (String × Entry)
  | [] => []
  | n :: rest => buildEntry extract path n ++ buildEntries extract path rest

/-- Entries contributed by a single child node of an admitted directory. -/
def buildEntry (extract : String → Option CFileRecord) (path : String) :
    FSNode → List (String × Entry)
  | FSNode.file name content => [(name, fileRecordEntry extract name content)]
  | FSNode.dir name sub =>
    if strContains (childPath path name) ".git" then []
    else [(name, Entry.dict (buildEntries extract (childPath path name) sub))]
end

/-- Embeds `create_structure(directory_path)`: the nested structure dict of
the whole tree, rooted at the relative root `"."`. -/
def create_structure (extract : String → Option CFileRecord) (tree : List FSNode) : Entry :=
  Entry.dict (buildEntries extract "." tree)

/-- Path lookup in the produced structure: follow one dict key per path
component — this is how every later stage addresses a file's record. -/
def entryFind : Entry → List String → Option Entry
  | e, [] => some e
  | Entry.dict es, k :: rest =>
    (match es.lookup k with
     | some e => entryFind e rest
     | none => none)
  | Entry.file _, _ :: _ => none

/-- Locate a directory child by name. -/
def findDirNode : List FSNode → String → Option (List FSNode)
  | [], _ => none
  | FSNode.dir nm sub :: rest, d => if nm = d then some sub else findDirNode rest d
  | FSNode.file _ _ :: rest, d => findDirNode rest d

/-- Locate a file child by name, returning its content. -/
def findFileNode : List FSNode → String → Option String
  | [], _ => none
  | FSNode.file nm c :: rest, f => if nm = f then some c else findFileNode rest f
  | FSNode.dir _ _ :: rest, f => findFileNode rest f

/-- Content of the file reached by descending the directory names in `dirs`
and then selecting `fname`. -/
def findFile : List FSNode → List String → String → Option String
  | ns, [], fname => findFileNode ns fname
  | ns, d :: ds, fname =>
    (match findDirNode ns d with
     | some sub => findFile sub ds fname
     | none => none)

/-- Sibling names are pairwise distinct (true of any real directory). -/
def distinctNames : List FSNode → Bool
  | [] => true
  | n :: rest => !((rest.map nodeName).contains (nodeName n)) && distinctNames rest

/-- Well-formedness along a descent path: sibling names are distinct at every
level visited. -/
def wfAt : List FSNode → List String → Bool
  | ns, [] => distinctNames ns
  | ns, d :: ds =>
    distinctNames ns &&
      (match findDirNode ns d with
       | some sub => wfAt sub ds
       | none => true)

theorem findFileNode_name_mem :
    ∀ (ns : List FSNode) (f c : String), findFileNode ns f = some c → f ∈ ns.map nodeName := by
  intro ns
  induction ns with
  | nil => intro f c h; cases h
  | cons n rest ih =>
    intro f c h
    cases n with
    | file nm cnt =>
      by_cases hnm : nm = f
      · subst hnm
        exact List.mem_cons_self _ _
      · rw [findFileNode, if_neg hnm] at h
        exact List.mem_cons_of_mem _ (ih f c h)
    | dir nm sub =>
      rw [findFileNode] at h
      exact List.mem_cons_of_mem _ (ih f c h)

theorem findDirNode_name_mem :
    ∀ (ns : List FSNode) (d : String) (sub : List FSNode),
      findDirNode ns d = some sub → d ∈ ns.map nodeName := by
  intro ns
  induction ns with
  | nil => intro d sub h; cases h
  | cons n rest ih =>
    intro d sub h
    cases n with
    | file nm cnt =>
      rw [findDirNode] at h
      exact List.mem_cons_of_mem _ (ih d sub h)
    | dir nm sub2 =>
      by_cases hnm : nm = d
      · subst hnm
        exact List.mem_cons_self _ _
      · rw [findDirNode, if_neg hnm] at h
        exact List.mem_cons_of_mem _ (ih d sub h)

theorem distinctNames_cons (n : FSNode) (rest : List FSNode)
    (hd : distinctNames (n :: rest) = true) :
    nodeName n ∉ rest.map nodeName ∧ distinctNames rest = true := by
  rw [distinctNames, Bool.and_eq_true, Bool.not_eq_true'] at hd
  refine ⟨?_, hd.2⟩
  simpa using hd.1

theorem lookup_buildEntries_file (extract : String → Option CFileRecord) :
    ∀ (ns : List FSNode) (path fname content : String),
      distinctNames ns = true →
      findFileNode ns fname = some content →
      (buildEntries extract path ns).lookup fname =
        some (fileRecordEntry extract fname content) := by
  intro ns
  induction ns with
  | nil => intro path fname content hd h; cases h
  | cons n rest ih =>
    intro path fname content hd h
    obtain ⟨hnotin, hdrest⟩ := distinctNames_cons n rest hd
    cases n with
    | file nm cnt =>
      rw [show buildEntries extract path (FSNode.file nm cnt :: rest) =
        (nm, fileRecordEntry extract nm cnt) :: buildEntries extract path rest from rfl]
      by_cases hnm : nm = fname
      · subst hnm
        rw [findFileNode, if_pos rfl] at h
        have hcc : content = cnt := (Option.some.inj h).symm
        subst hcc
        rw [List.lookup]
        simp
      · rw [findFileNode, if_neg hnm] at h
        rw [List.lookup, show (fname == nm) = false by
          simp
          exact fun hh => hnm hh.symm]
        exact ih path fname content hdrest h
    | dir nm sub =>
      rw [findFileNode] at h
      have hfmem := findFileNode_name_mem rest fname content h
      have hnm : nm ≠ fname := by
        intro hh
        rw [show nodeName (FSNode.dir nm sub) = nm from rfl] at hnotin
        exact hnotin (hh ▸ hfmem)
      rw [show buildEntries extract path (FSNode.dir nm sub :: rest) =
        buildEntry extract path (FSNode.dir nm sub) ++ buildEntries extract path rest from rfl]
      by_cases hskip : strContains (childPath path nm) ".git" = true
      · rw [show buildEntry extract path (FSNode.dir nm sub) = [] by
          rw [buildEntry, if_pos hskip], List.nil_append]
        exact ih path fname content hdrest h
      · rw [show buildEntry extract path (FSNode.dir nm sub) =
          [(nm, Entry.dict (buildEntries extract (childPath path nm) sub))] by
          rw [buildEntry, if_neg hskip], List.singleton_append, List.lookup,
          show (fname == nm) = false by
            simp
            exact fun hh => hnm hh.symm]
        exact ih path fname content hdrest h

theorem lookup_buildEntries_dir (extract : String → Option CFileRecord) :
    ∀ (ns : List FSNode) (path d : String) (sub : List FSNode),
      distinctNames ns = true →
      findDirNode ns d = some sub →
      strContains (childPath path d) ".git" = false →
      (buildEntries extract path ns).lookup d =
        some (Entry.dict (buildEntries extract (childPath path d) sub)) := by
  intro ns
  induction ns with
  | nil => intro path d sub hd h hcl; cases h
  | cons n rest ih =>
    intro path d sub hd h hcl
    obtain ⟨hnotin, hdrest⟩ := distinctNames_cons n rest hd
    cases n with
    | file nm cnt =>
      rw [findDirNode] at h
      have hdmem := findDirNode_name_mem rest d sub h
      have hnm : nm ≠ d := by
        intro hh
        rw [show nodeName (FSNode.file nm cnt) = nm from rfl] at hnotin
        exact hnotin (hh ▸ hdmem)
      rw [show buildEntries extract path (FSNode.file nm cnt :: rest) =
        (nm, fileRecordEntry extract nm cnt) :: buildEntries extract path rest from rfl]
      rw [List.lookup, show (d == nm) = false by
        simp
        exact fun hh => hnm hh.symm]
      exact ih path d sub hdrest h hcl
    | dir nm sub2 =>
      rw [show buildEntries extract path (FSNode.dir nm sub2 :: rest) =
        buildEntry extract path (FSNode.dir nm sub2) ++ buildEntries extract path rest from rfl]
      by_cases hnm : nm = d
      · subst hnm
        rw [findDirNode, if_pos rfl] at h
        have hss : sub = sub2 := (Option.some.inj h).symm
        subst hss
        rw [show buildEntry extract path (FSNode.dir nm sub) =
          [(nm, Entry.dict (buildEntries extract (childPath path nm) sub))] by
          rw [buildEntry, if_neg (by rw [hcl]; exact Bool.false_ne_true)],
          List.singleton_append, List.lookup]
        simp
      · rw [findDirNode, if_neg hnm] at h
        have hdmem := findDirNode_name_mem rest d sub h
        by_cases hskip : strContains (childPath path nm) ".git" = true
        · rw [show buildEntry extract path (FSNode.dir nm sub2) = [] by
            rw [buildEntry, if_pos hskip], List.nil_append]
          exact ih path d sub hdrest h hcl
        · rw [show buildEntry extract path (FSNode.dir nm sub2) =
            [(nm, Entry.dict (buildEntries extract (childPath path nm) sub2))] by
            rw [buildEntry, if_neg hskip], List.singleton_append, List.lookup,
            show (d == nm) = false by
              simp
              exact fun hh => hnm hh.symm]
          exact ih path d sub hdrest h hcl

theorem entryFind_nil (e : Entry) : entryFind e [] = some e := by
  cases e <;> rfl

theorem entryFind_buildEntries (extract : String → Option CFileRecord) :
    ∀ (dirs : List String) (ns : List FSNode) (path fname content : String),
      wfAt ns dirs = true →
      findFile ns dirs fname = some content →
      (∀ i, i ≤ dirs.length → strContains (pathStrFrom path (dirs.take i)) ".git" = false) →
      entryFind (Entry.dict (buildEntries extract path ns)) (dirs ++ [fname]) =
        some (fileRecordEntry extract fname content) := by
  intro dirs
  induction dirs with
  | nil =>
    intro ns path fname content hwf hf hclean
    rw [wfAt] at hwf
    rw [findFile] at hf
    have hl := lookup_buildEntries_file extract ns path fname content hwf hf
    rw [List.nil_append,
      show entryFind (Entry.dict (buildEntries extract path ns)) [fname] =
        (match (buildEntries extract path ns).lookup fname with
         | some e => entryFind e []
         | none => none) from rfl, hl]
    exact entryFind_nil _
  | cons d ds ih =>
    intro ns path fname content hwf hf hclean
    rw [wfAt, Bool.and_eq_true] at hwf
    obtain ⟨hdn, hrest⟩ := hwf
    rw [findFile] at hf
    cases hdir : findDirNode ns d with
    | none =>
      rw [hdir] at hf
      cases hf
    | some sub =>
      rw [hdir] at hf hrest
      have hcl1 : strContains (childPath path d) ".git" = false := by
        have hstep := hclean 1 (by simp only [List.length_cons]; omega)
        exact hstep
      have hl := lookup_buildEntries_dir extract ns path d sub hdn hdir hcl1
      rw [show (d :: ds) ++ [fname] = d :: (ds ++ [fname]) from rfl,
        show entryFind (Entry.dict (buildEntries extract path ns)) (d :: (ds ++ [fname])) =
          (match (buildEntries extract path ns).lookup d with
           | some e => entryFind e (ds ++ [fname])
           | none => none) from rfl, hl]
      apply ih sub (childPath path d) fname content hrest hf
      intro i hi
      exact hclean (i + 1) (by simp only [List.length_cons]; omega)

/-- C8 counterexample: `create_structure` skips every walk root containing
`.git` as a SUBSTRING, so the file `ci.yml` inside the directory `.github` —
which is not version-control metadata — gets no record at all: its path
resolves to nothing in the index, refuting "exactly one record reachable by
each file's relative path for every file not under version-control metadata". -/
theorem claim_c8_counterexample :
    (entryFind (create_structure (fun _ => none)
        [FSNode.dir ".github" [FSNode.file "ci.yml" ""], FSNode.file "main.c" "int x;"])
      [".github", "ci.yml"]).isNone = true ∧
    findFile [FSNode.dir ".github" [FSNode.file "ci.yml" ""], FSNode.file "main.c" "int x;"]
      [".github"] "ci.yml" = some "" := by decide

/-- C8 (amended): for every file of the tree whose walk path (every prefix of
it, the root included) is free of the SUBSTRING `.git` — rather than "not
under version-control metadata": directories such as `.github` are also
dropped — the index has exactly one record reachable by the file's relative
path: the extractor's record for `.c`/`.h` names, the empty-but-present dict
for every other extension, and the empty record when extraction fails. -/
theorem claim_c8_index_completeness (extract : String → Option CFileRecord)
    (tree : List FSNode) (dirs : List String) (fname content : String)
    (hwf : wfAt tree dirs = true)
    (hfile : findFile tree dirs fname = some content)
    (hclean : ∀ i, i ≤ dirs.length → strContains (pathStrFrom "." (dirs.take i)) ".git" = false) :
    entryFind (create_structure extract tree) (dirs ++ [fname]) =
      some (fileRecordEntry extract fname content) ∧
    ((pyEndsWith fname ".c" || pyEndsWith fname ".h") = false →
      entryFind (create_structure extract tree) (dirs ++ [fname]) = some (Entry.dict [])) ∧
    ((pyEndsWith fname ".c" || pyEndsWith fname ".h") = true → extract content = none →
      entryFind (create_structure extract tree) (dirs ++ [fname]) =
        some (Entry.file (CFileRecord.mk [] [] []))) := by
  have hmain := entryFind_buildEntries extract dirs tree "." fname content hwf hfile hclean
  have hmain2 : entryFind (create_structure extract tree) (dirs ++ [fname]) =
      some (fileRecordEntry extract fname content) := hmain
  refine ⟨hmain2, ?_, ?_⟩
  · intro hext
    rw [hmain2, fileRecordEntry, hext]
    rw [if_neg Bool.false_ne_true]
  · intro hext hfail
    rw [hmain2, fileRecordEntry, if_pos hext, hfail]
    rfl

/-- Witness for C8 (amended) on a concrete clean tree: the parsed record for
`src/a.c`, the empty dict for `src/README`, and the empty record for a file
whose extraction fails. -/
theorem claim_c8_index_completeness_witness :
    entryFind (create_structure (fun c => some (CFileRecord.mk [] [] [c]))
        [FSNode.dir "src" [FSNode.file "a.c" "int a;", FSNode.file "README" "hi"]])
      ["src", "a.c"] =
      some (fileRecordEntry (fun c => some (CFileRecord.mk [] [] [c])) "a.c" "int a;") ∧
    entryFind (create_structure (fun c => some (CFileRecord.mk [] [] [c]))
        [FSNode.dir "src" [FSNode.file "a.c" "int a;", FSNode.file "README" "hi"]])
      ["src", "README"] = some (Entry.dict []) ∧
    entryFind (create_structure (fun _ => (none : Option CFileRecord))
        [FSNode.dir "src" [FSNode.file "bad.c" "junk"]])
      ["src", "bad.c"] = some (Entry.file (CFileRecord.mk [] [] [])) := by
  refine ⟨?_, ?_, ?_⟩
  · exact (claim_c8_index_completeness (fun c => some (CFileRecord.mk [] [] [c]))
      [FSNode.dir "src" [FSNode.file "a.c" "int a;", FSNode.file "README" "hi"]]
      ["src"] "a.c" "int a;" (by decide) (by decide) (by decide)).1
  · exact (claim_c8_index_completeness (fun c => some (CFileRecord.mk [] [] [c]))
      [FSNode.dir "src" [FSNode.file "a.c" "int a;", FSNode.file "README" "hi"]]
      ["src"] "README" "hi" (by decide) (by decide) (by decide)).2.1 (by decide)
  · exact (claim_c8_index_completeness (fun _ => (none : Option CFileRecord))
      [FSNode.dir "src" [FSNode.file "bad.c" "junk"]]
      ["src"] "bad.c" "junk" (by decide) (by decide) (by decide)).2.2 (by decide) rfl

/- ### SubdirectoryPartitioner derivation (`KernelLLMFL._get_kernel_subdirs`):
dynamic semantics -/

/-- Dynamically-typed Python value, as far as `_get_kernel_subdirs` touches
it: strings, dicts with string keys, and lists. -/
inductive PyVal where
  | pstr : String → PyVal
  | pdict : List (String × PyVal) → PyVal
  | plist : List PyVal → PyVal

/-- Python iteration `for item in structure`: a dict yields its keys, a list
its elements, a string its one-character substrings. -/
def pyIter : PyVal → List PyVal
  | PyVal.pstr s => s.data.map (fun c => PyVal.pstr (String.mk [c]))
  | PyVal.pdict kvs => kvs.map (fun kv => PyVal.pstr kv.1)
  | PyVal.plist xs => xs

/-- Python subscript `item[key]` with a string key: defined only on a dict
that contains the key — on a string or list operand it raises `TypeError`, on
a missing key `KeyError` (both modelled as `none`). -/
def pySubscript : PyVal → String → Option PyVal
  | PyVal.pdict kvs, key => kvs.lookup key
  | _, _ => none

/-- Python `name.strip('/')`. -/
def stripSlashes (s : String) : String :=
  String.mk (((s.data.dropWhile (fun c => c == '/')).reverse.dropWhile
    (fun c => c == '/')).reverse)

/-- Embeds `KernelLLMFL._get_kernel_subdirs` under the dynamic semantics:
`for item in structure: if item['type'] == 'directory' and '/' not in
item['name'].strip('/'): subdirs.append(item['name'])`.  The `none` case
models an uncaught `TypeError` / `KeyError` / `AttributeError` raised in the
loop body (`==` against a string is `False`, never an error, for non-string
operands). -/
def get_kernel_subdirs (struct : PyVal) : Option (List String) :=
  (pyIter struct).foldlM
    (fun subdirs item =>
      match pySubscript item "type" with
      | none => none
      | some (PyVal.pstr t) =>
        if t = "directory" then
          match pySubscript item "name" with
          | none => none
          | some (PyVal.pstr nm) =>
            some (if (stripSlashes nm).data.contains '/' then subdirs else subdirs ++ [nm])
          | some _ => none
        else some subdirs
      | some _ => some subdirs)
    []

/-- C9: the partitioner's subdirectory derivation is written against a flat
list of `{'type': ..., 'name': ...}` items (second conjunct: on such a list it
collects exactly the slash-free directory names), but the repository's own
indexer (`create_structure`) produces a nested dict; iterating that dict
yields its key strings, and `item['type']` on a string raises `TypeError`
(first conjunct: the run aborts, no partition is derived). -/
theorem claim_c9_subdir_derivation :
    get_kernel_subdirs (PyVal.pdict
      [("fs", PyVal.pdict [("inode.c", PyVal.pdict
          [("classes", PyVal.plist []), ("functions", PyVal.plist []),
            ("text", PyVal.plist [])])]),
       ("mm", PyVal.pdict [])]) = none ∧
    get_kernel_subdirs (PyVal.plist
      [PyVal.pdict [("type", PyVal.pstr "directory"), ("name", PyVal.pstr "fs")],
       PyVal.pdict [("type", PyVal.pstr "file"), ("name", PyVal.pstr "Makefile")],
       PyVal.pdict [("type", PyVal.pstr "directory"), ("name", PyVal.pstr "fs/ext4")],
       PyVal.pdict [("type", PyVal.pstr "directory"), ("name", PyVal.pstr "mm")]]) =
      some ["fs", "mm"] := by decide
